import Mathlib

/-
Shallow embedding of `src/tracker.py` (TrackerManager): device-identity
registry, message ingestion, fuzzy identity search, and the message range
query.  Strings are embedded as `List Char`; the per-manager mutable state
(`did2tracker`, the cached pagination list, the two background-task write
queues) is an explicit state record threaded through each operation.
Operations that can raise a Python exception return an `Option` (`none` =
the exception propagated to the caller); `addTracker`'s assertion failure
is encoded as `(none, unchangedState)`.  A ghost event trace records the
order of identity-creation and queue-insertion effects.
-/

abbrev Str := List Char

/-- ASCII uppercase of one character: embedding of Python `str.upper`
restricted to ASCII (device addresses and queries are ASCII hex/hyphen
text in the source). -/
def charUpper (c : Char) : Char :=
  if 97 ≤ c.toNat ∧ c.toNat ≤ 122 then Char.ofNat (c.toNat - 32) else c

/-- Uppercase a whole string (`s.upper()`). -/
def upperStr (s : Str) : Str := s.map charUpper

/-- Is `c` a hexadecimal digit (either case)? -/
def isHexDigitCh (c : Char) : Bool :=
  decide ('0' ≤ c ∧ c ≤ '9') || decide ('A' ≤ c ∧ c ≤ 'F') || decide ('a' ≤ c ∧ c ≤ 'f')

/-- Numeric value of a hex digit (0 for non-digits). -/
def hexVal (c : Char) : Nat :=
  if '0' ≤ c ∧ c ≤ '9' then c.toNat - 48
  else if 'A' ≤ c ∧ c ≤ 'F' then c.toNat - 55
  else if 'a' ≤ c ∧ c ≤ 'f' then c.toNat - 87
  else 0

/-- Uppercase hex digit character for a value below 16. -/
def hexDigitChar (n : Nat) : Char :=
  if n < 10 then Char.ofNat (48 + n) else Char.ofNat (55 + n)

/-- Python `"-".join(chunks)`. -/
def hyphenJoin : List Str → Str
  | [] => []
  | [x] => x
  | x :: y :: rest => x ++ '-' :: hyphenJoin (y :: rest)

/-- Split a string into consecutive pairs of characters (a final odd
character forms a singleton chunk): the slices `x[i:i+2]` for
`i in range(0, len(x), 2)`. -/
def chunk2 : Str → List Str
  | [] => []
  | [a] => [[a]]
  | a :: b :: rest => [a, b] :: chunk2 rest

/-- Modelled from the spec: `rtlib.Eui.str2int`, the external
string-to-integer half of the address codec ("string↔integer identity
codec").  Hyphens are ignored; exactly 16 hex digits must remain, read as
a base-16 number; anything else raises (encoded `none`) — the source
guards exactly this call with `try/except` in `searchTracker`'s fallback
branch. -/
def str2intOpt (s : Str) : Option Nat :=
  let h := s.filter (fun c => decide (c ≠ '-'))
  if h.length = 16 ∧ h.all isHexDigitCh then
    some (h.foldl (fun a c => a * 16 + hexVal c) 0)
  else none

/-- Big-endian 16-hex-digit rendering of a 64-bit value. -/
def toHex16 (d : Nat) : Str :=
  ((Nat.digits 16 d ++ List.replicate (16 - (Nat.digits 16 d).length) 0).map
    hexDigitChar).reverse

/-- Modelled from the spec: `rtlib.Eui.int2str`, the external
integer-to-string half of the address codec; produces the canonical
hyphenated address (eight uppercase hex pairs joined by `-`). -/
def int2str (d : Nat) : Str := hyphenJoin (chunk2 (toHex16 d))

/-- Suffix after the last occurrence of the substring `TN`, or `none`
when `TN` does not occur.  (Occurrences of `TN` never overlap, so the
left-to-right consuming scan finds the genuinely last one.) -/
def dropThroughLastTN : List Char → Option (List Char)
  | [] => none
  | [_] => none
  | a :: b :: rest =>
    if a = 'T' ∧ b = 'N' then some ((dropThroughLastTN rest).getD rest)
    else dropThroughLastTN (b :: rest)

/-- One newline-free segment under `re.sub(r'.*TN', 'TN', s)`: the greedy
match replaces everything up to the last `TN` by `TN`; a segment without
`TN` is unchanged. -/
def stripToTN (seg : Str) : Str :=
  match dropThroughLastTN seg with
  | some suf => 'T' :: 'N' :: suf
  | none => seg

/-- Split at newline characters (Python `.` in a regex does not match
newlines, so `re.sub` acts per newline-free segment). -/
def splitNl : List Char → List (List Char)
  | [] => [[]]
  | c :: r =>
    if c = '\n' then [] :: splitNl r
    else
      match splitNl r with
      | [] => [[c]]
      | h :: t => (c :: h) :: t

/-- Rejoin newline-separated segments. -/
def joinNl : List (List Char) → List Char
  | [] => []
  | [x] => x
  | x :: y :: rest => x ++ '\n' :: joinNl (y :: rest)

/-- Embedding of `re.sub(r'.*TN', 'TN', s)`: per newline-free segment,
collapse the prefix up to the last `TN` to `TN`. -/
def subTN (s : Str) : Str :=
  joinNl ((splitNl s).map stripToTN)

/-- `class Tracker`: immutable device identity (the back-pointer to the
manager is dropped; it carries no data relevant to the state model). -/
structure Tracker where
  deveui : Str
  did : Nat
deriving DecidableEq

/-- `parser.TrackerMessage` as consumed by this module (constructed in
`getTrackerMessages` with fields `(deveui, upid, lora, ts, pos, acc,
error, sensors)`); the opaque payloads (`lora`, `sensors`) and the
timestamp are modelled as opaque numeric tokens, positions as integer
pairs. -/
structure TrackerMessage where
  did : Nat
  upid : Nat
  lora : Nat
  ts : Nat
  pos : Int × Int
  acc : Int
  err : Option Str
  sensors : Nat
deriving DecidableEq

/-- Ghost trace events: insertion on the identity-write (status) queue,
insertion of an identity into the in-memory map, and append on the
message-write queue. -/
inductive Event where
  | idEnq (did : Nat)
  | idCreate (did : Nat)
  | msgEnq (did : Nat)
deriving DecidableEq

/-- Mutable state of one `TrackerManager`: the id→identity map (kept as
an insertion-ordered association list, exactly a Python dict), the cached
pagination list `self.trackers`, the accumulator of the identity-write
background task (`pgwrstatustask.queue`, a dict), the accumulator of the
message-write background task (`pgwrmessagetask.queue`, a list), and the
ghost event trace. -/
structure TMState where
  did2tracker : List (Nat × Tracker)
  trackers : List Tracker
  statusQueue : List (Nat × Tracker)
  messageQueue : List TrackerMessage
  trace : List Event
deriving DecidableEq

/-- Fresh manager state (`__init__`). -/
def initState : TMState := ⟨[], [], [], [], []⟩

/-- Python dict assignment `m[k] = v`: replace the entry of an existing
key in place, else append the new key at the end (dicts preserve
insertion order). -/
def dictInsert : List (Nat × Tracker) → Nat → Tracker → List (Nat × Tracker)
  | [], k, v => [(k, v)]
  | (k', v') :: rest, k, v =>
    if k' = k then (k, v) :: rest else (k', v') :: dictInsert rest k v

/-- The inbound envelope (`loramsg.Msg`): a dict carrying at least the
classification tag and the device address; remaining fields are an opaque
payload token. -/
structure Msg where
  msgtype : Str
  devEui : Str
  body : Nat
deriving DecidableEq

/-- The fixed parser profile identifier `PARSER_NAME`. -/
def parserName : Str := "system/trackers/any/v10/beapp".toList

/-- Outcome type of the external `parse` coroutine: it can raise
(`Except.error`), signal not-applicable (`Except.ok none`), or produce a
structured message (`Except.ok (some tm)`). -/
abbrev ParseFun := Str → Nat → Msg → Except Unit (Option TrackerMessage)

/-- `TrackerManager.loadTracker`: build the id→identity map from the ids
stored in the status table (`rows`), reconstructing each address with the
codec. -/
def loadTracker (rows : List Nat) : List (Nat × Tracker) :=
  rows.foldl (fun m did => dictInsert m did ⟨int2str did, did⟩) []

/-- `TrackerManager.getTracker` (the spec's `getOrCreate`): decode the
address (an undecodable address raises: outer `none`); return the mapped
identity when present with no other effect; otherwise enqueue the new
identity on the status queue, notify, and insert it into the map. -/
def getTracker (st : TMState) (deveui : Str) : Option (Tracker × TMState) :=
  match str2intOpt deveui with
  | none => none
  | some did =>
    match st.did2tracker.lookup did with
    | some t => some (t, st)
    | none =>
      let t : Tracker := ⟨deveui, did⟩
      some (t, { st with
        statusQueue := dictInsert st.statusQueue did t,
        did2tracker := dictInsert st.did2tracker did t,
        trace := st.trace ++ [Event.idEnq did, Event.idCreate did] })

/-- `TrackerManager.addTracker` (the spec's `addExplicit`): assert the id
is unused (a failed assertion raises before any mutation: result
`(none, st)`); then enqueue on the status queue, notify, and insert into
the map.  The given id is stored as-is; it is never checked against the
decoding of `deveui`. -/
def addTracker (st : TMState) (deveui : Str) (did : Nat) :
    Option Tracker × TMState :=
  if (st.did2tracker.lookup did).isSome then (none, st)
  else
    let t : Tracker := ⟨deveui, did⟩
    (some t, { st with
      statusQueue := dictInsert st.statusQueue did t,
      did2tracker := dictInsert st.did2tracker did t,
      trace := st.trace ++ [Event.idEnq did, Event.idCreate did] })

/-- `TrackerManager.on_lora_msg` (the spec's `ingest`): drop non-uplink
envelopes; decode the address (outside any `try`, so an undecodable
address raises: `none`); call the external parser; on parser exception or
not-applicable, log and discard; on a structured message, create the
identity if missing and append the message to the message queue. -/
def on_lora_msg (parse : ParseFun) (st : TMState) (msg : Msg) :
    Option TMState :=
  if msg.msgtype ≠ "upinfo".toList then some st
  else
    match str2intOpt msg.devEui with
    | none => none
    | some did =>
      match parse parserName did msg, st.did2tracker.lookup did with
      | Except.error _, _ => some st
      | Except.ok none, _ => some st
      | Except.ok (some tm), some _ =>
        some { st with
          messageQueue := st.messageQueue ++ [tm],
          trace := st.trace ++ [Event.msgEnq tm.did] }
      | Except.ok (some tm), none =>
        match addTracker st msg.devEui did with
        | (none, _) => none
        | (some _, st') =>
          some { st' with
            messageQueue := st'.messageQueue ++ [tm],
            trace := st'.trace ++ [Event.msgEnq tm.did] }

/-- `TrackerManager.lookupTracker` threaded through the state: decode the
address (no `try`: an undecodable address raises, outer `none`) and read
the map; the state is returned unchanged since the body only reads. -/
def lookupTracker (st : TMState) (deveui : Str) :
    Option (Option Tracker) × TMState :=
  (match str2intOpt deveui with
   | none => none
   | some did => some (st.did2tracker.lookup did), st)

/-- Local helper `tn2eui` of `searchTracker`: hyphen-join the eight
two-character slices of `x[2:]`. -/
def tn2eui (x : Str) : Str :=
  hyphenJoin ((List.range 8).map (fun k => ((x.drop 2).drop (2 * k)).take 2))

/-- Local helper `s2eui` of `searchTracker`: hyphen-join the
two-character chunks of `x`. -/
def s2eui (x : Str) : Str := hyphenJoin (chunk2 x)

/-- The built-in default-device tag substituted for an empty query. -/
def defaultTag : Str := "TN58A0CB0000200000".toList

/-- Suffix scan of `searchTracker`'s branches 3/4: first identity (in
map-iteration order) whose canonical address ends with the reformatted
suffix. -/
def suffixScan (st : TMState) (s' : Str) : Option Tracker :=
  (st.did2tracker.find? (fun p => s'.isSuffixOf p.2.deveui)).map
    (fun p => p.2)

/-- Final fallback of `searchTracker`: parse `pre` as a raw address
inside `try/except: pass` (so a decode failure is caught and yields
not-found), then exact map lookup. -/
def searchFallback (st : TMState) (pre : Str) : Option (Option Tracker) :=
  match str2intOpt pre with
  | some did =>
    match st.did2tracker.lookup did with
    | some t => some (some t)
    | none => some none
  | none => some none

/-- Branch evaluation of `searchTracker` after normalization (uppercase
and `re.sub`).  Result: `none` = an exception propagated; `some none` =
not found; `some (some t)` = found.  Branches 3/4 rebind `s` to the
hyphenated suffix before scanning, and on a failed scan fall through to
the fallback with that rebound string; only the fallback's decode is
guarded by `try/except`. -/
def searchBranches (st : TMState) (s : Str) : Option (Option Tracker) :=
  if s.length = 18 then (lookupTracker st (tn2eui s)).1
  else if s.length = 0 then (lookupTracker st (tn2eui defaultTag)).1
  else if s.length < 18 ∧ ¬ s.contains '-' then
    match suffixScan st ((s2eui s.reverse).reverse) with
    | some t => some (some t)
    | none => searchFallback st ((s2eui s.reverse).reverse)
  else if s.length < 23 ∧ s.contains '-' then
    match suffixScan st
        ((s2eui ((s.filter (fun c => decide (c ≠ '-'))).reverse)).reverse) with
    | some t => some (some t)
    | none => searchFallback st
        ((s2eui ((s.filter (fun c => decide (c ≠ '-'))).reverse)).reverse)
  else searchFallback st s

/-- `TrackerManager.searchTracker` threaded through the state: uppercase,
normalize the vendor-tag prefix with `re.sub(r'.*TN', 'TN', s)`, then
evaluate the branches; the body only reads the state. -/
def searchTracker (st : TMState) (s : Str) :
    Option (Option Tracker) × TMState :=
  (searchBranches st (subTN (upperStr s)), st)

/-- Known-id filter of `getTrackerMessages`. -/
def knownDids (st : TMState) (dids : List Nat) : List Nat :=
  dids.filter (fun d => (st.did2tracker.lookup d).isSome)

/-- Insert a message into an upid-ascending list. -/
def insertByUpid (r : TrackerMessage) : List TrackerMessage → List TrackerMessage
  | [] => [r]
  | x :: xs =>
    if r.upid ≤ x.upid then r :: x :: xs else x :: insertByUpid r xs

/-- Sort messages ascending by upid (the model of `ORDER BY upid ASC`). -/
def sortByUpid (l : List TrackerMessage) : List TrackerMessage :=
  l.foldr insertByUpid []

/-- Modelled from the spec: execution of the single range query built by
`getTrackerMessages` against the external relational store (the store
itself is not part of this module).  The store's message table is a list
of rows; `WHERE deveui IN dids AND upid BETWEEN lo AND hi ORDER BY upid
ASC LIMIT 8192`. -/
def queryMessages (db : List TrackerMessage) (dids : List Nat) (lo hi : Nat) :
    List TrackerMessage :=
  (sortByUpid (db.filter
    (fun r => dids.contains r.did && decide (lo ≤ r.upid) && decide (r.upid ≤ hi)))).take 8192

/-- Python grouping loop of `getTrackerMessages`: append each row to its
device's list, creating the key on first sight. -/
def groupInsert : List (Nat × List TrackerMessage) → TrackerMessage →
    List (Nat × List TrackerMessage)
  | [], r => [(r.did, [r])]
  | (k, l) :: rest, r =>
    if k = r.did then (k, l ++ [r]) :: rest else (k, l) :: groupInsert rest r

/-- Group query rows by device id in row order. -/
def groupRows (rows : List TrackerMessage) : List (Nat × List TrackerMessage) :=
  rows.foldl groupInsert []

/-- `TrackerManager.getTrackerMessages` (the spec's `messagesFor`): filter
the requested ids to the known ones; with none known return empty without
touching storage; otherwise issue exactly one range query (the second
component counts issued queries) and group its rows by device id.  The
time window is taken already converted to the upid range `[lo, hi]`
(`rtlib.upid_from_datetime` is external). -/
def getTrackerMessages (st : TMState) (db : List TrackerMessage)
    (dids : List Nat) (lo hi : Nat) :
    List (Nat × List TrackerMessage) × Nat :=
  let ds := knownDids st dids
  if ds = [] then ([], 0)
  else (groupRows (queryMessages db ds lo hi), 1)

/-- The registry invariant of §3: at most one identity per id (the key
list of the map has no duplicates) and every stored identity's id is the
decoding of its address. -/
def RegInv (m : List (Nat × Tracker)) : Prop :=
  (m.map Prod.fst).Nodup ∧ ∀ p ∈ m, str2intOpt p.2.deveui = some p.1

instance (m : List (Nat × Tracker)) : Decidable (RegInv m) := by
  unfold RegInv; infer_instance

/-- Association-list lookup misses exactly the keys absent from the key
list. -/
theorem lookup_eq_none_iff (m : List (Nat × Tracker)) (k : Nat) :
    m.lookup k = none ↔ ∀ p ∈ m, p.1 ≠ k := by
  induction m with
  | nil => simp [List.lookup]
  | cons p rest ih =>
    obtain ⟨k', v'⟩ := p
    by_cases h : k = k'
    · subst h; simp [List.lookup]
    · have hb : (k == k') = false := beq_eq_false_iff_ne.mpr h
      simp only [List.lookup, hb, ih]
      constructor
      · intro hr p hp
        rcases List.mem_cons.mp hp with rfl | hp'
        · exact fun e => h e.symm
        · exact hr p hp'
      · intro hr p hp
        exact hr p (List.mem_cons_of_mem _ hp)

/-- Inserting an absent key appends it at the end of the dict. -/
theorem dictInsert_of_absent (m : List (Nat × Tracker)) (k : Nat)
    (v : Tracker) (h : m.lookup k = none) :
    dictInsert m k v = m ++ [(k, v)] := by
  induction m with
  | nil => simp [dictInsert]
  | cons p rest ih =>
    obtain ⟨k', v'⟩ := p
    rw [lookup_eq_none_iff] at h
    have hk : k' ≠ k := h (k', v') (by simp)
    have hrest : rest.lookup k = none := by
      rw [lookup_eq_none_iff]
      exact fun q hq => h q (by simp [hq])
    simp [dictInsert, hk, ih hrest]

/-- Keys after a dict insertion are the old keys together with the new
one. -/
theorem mem_keys_dictInsert (m : List (Nat × Tracker)) (k : Nat)
    (v : Tracker) (a : Nat) :
    a ∈ (dictInsert m k v).map Prod.fst ↔ a ∈ m.map Prod.fst ∨ a = k := by
  induction m with
  | nil => simp [dictInsert]
  | cons p rest ih =>
    obtain ⟨k', v'⟩ := p
    by_cases h : k' = k
    · subst h; simp [dictInsert]; tauto
    · simp [dictInsert, h, ih]; tauto

/-- Every entry after a dict insertion is an old entry or the inserted
one. -/
theorem mem_dictInsert (m : List (Nat × Tracker)) (k : Nat) (v : Tracker)
    (p : Nat × Tracker) (hp : p ∈ dictInsert m k v) : p ∈ m ∨ p = (k, v) := by
  induction m with
  | nil => simpa [dictInsert] using hp
  | cons q rest ih =>
    obtain ⟨k', v'⟩ := q
    by_cases h : k' = k
    · subst h; simp [dictInsert] at hp; tauto
    · simp [dictInsert, h] at hp
      rcases hp with hp | hp
      · exact Or.inl (by simp [hp])
      · rcases ih hp with h1 | h1
        · exact Or.inl (by simp [h1])
        · exact Or.inr h1

/-- A dict insertion keeps the key list duplicate-free. -/
theorem nodup_keys_dictInsert (m : List (Nat × Tracker)) (k : Nat)
    (v : Tracker) (h : (m.map Prod.fst).Nodup) :
    ((dictInsert m k v).map Prod.fst).Nodup := by
  induction m with
  | nil => simp [dictInsert]
  | cons p rest ih =>
    obtain ⟨k', v'⟩ := p
    rw [List.map_cons, List.nodup_cons] at h
    by_cases hk : k' = k
    · subst hk
      have hins : dictInsert ((k', v') :: rest) k' v = (k', v) :: rest := by
        simp [dictInsert]
      rw [hins, List.map_cons, List.nodup_cons]
      exact h
    · have hout : k' ∉ (dictInsert rest k v).map Prod.fst := by
        rw [mem_keys_dictInsert]
        push_neg
        exact ⟨h.1, hk⟩
      simp only [dictInsert, if_neg hk, List.map_cons, List.nodup_cons]
      exact ⟨hout, ih h.2⟩

/-- A dict insertion of an identity whose id decodes from its address
preserves the registry invariant. -/
theorem RegInv_dictInsert (m : List (Nat × Tracker)) (k : Nat)
    (t : Tracker) (hm : RegInv m) (ht : str2intOpt t.deveui = some k) :
    RegInv (dictInsert m k t) := by
  refine ⟨nodup_keys_dictInsert m k t hm.1, fun p hp => ?_⟩
  rcases mem_dictInsert m k t p hp with h | h
  · exact hm.2 p h
  · subst h; exact ht

/-- Hex digit characters decode back to their value. -/
theorem hexVal_hexDigitChar (x : Nat) (h : x < 16) :
    hexVal (hexDigitChar x) = x := by
  interval_cases x <;> decide

/-- Hex digit characters pass the hex-digit test. -/
theorem isHex_hexDigitChar (x : Nat) (h : x < 16) :
    isHexDigitCh (hexDigitChar x) = true := by
  interval_cases x <;> decide

/-- Hex digit characters are not hyphens. -/
theorem hexDigitChar_ne_hyphen (x : Nat) (h : x < 16) :
    hexDigitChar x ≠ '-' := by
  interval_cases x <;> decide

/-- Flattening the two-character chunks recovers the string. -/
theorem chunk2_flatten : ∀ cs : Str, (chunk2 cs).flatten = cs
  | [] => by simp [chunk2]
  | [a] => by simp [chunk2]
  | a :: b :: rest => by simp [chunk2, chunk2_flatten rest]

/-- Removing hyphens from a hyphen-join of hyphen-free chunks recovers
the flattened chunks. -/
theorem filter_hyphenJoin : ∀ L : List Str,
    (∀ x ∈ L, ∀ c ∈ x, c ≠ '-') →
    (hyphenJoin L).filter (fun c => decide (c ≠ '-')) = L.flatten
  | [], _ => by simp [hyphenJoin]
  | [x], h => by
    simp only [hyphenJoin, List.flatten_cons, List.flatten_nil,
      List.append_nil]
    rw [List.filter_eq_self]
    intro a ha
    simpa using h x (by simp) a ha
  | x :: y :: rest, h => by
    have hx : x.filter (fun c => decide (c ≠ '-')) = x := by
      rw [List.filter_eq_self]
      intro a ha
      simpa using h x (by simp) a ha
    have ih := filter_hyphenJoin (y :: rest)
      (fun z hz c hc => h z (by simp [hz]) c hc)
    show List.filter (fun c => decide (c ≠ '-'))
        (x ++ '-' :: hyphenJoin (y :: rest)) = x ++ (y :: rest).flatten
    rw [List.filter_append, hx, List.filter_cons, if_neg (by decide), ih]

/-- Digit lists of 64-bit values have at most 16 base-16 digits. -/
theorem digits16_len_le (d : Nat) (h : d < 2 ^ 64) :
    (Nat.digits 16 d).length ≤ 16 := by
  rcases Nat.eq_zero_or_pos d with rfl | hd
  · simp
  · by_contra hlt
    push_neg at hlt
    have h1 := Nat.base_pow_length_digits_le 16 d (by norm_num)
      (Nat.pos_iff_ne_zero.mp hd)
    have h2 : (16 : Nat) ^ 17 ≤ 16 ^ (Nat.digits 16 d).length :=
      Nat.pow_le_pow_right (by norm_num) hlt
    have h3 : 16 * d < 16 ^ 17 := by
      calc 16 * d < 16 * 2 ^ 64 := by omega
      _ = 16 ^ 17 := by norm_num
    omega

/-- `Nat.ofDigits` of zero padding vanishes. -/
theorem ofDigits_replicate_zero (n : Nat) :
    Nat.ofDigits 16 (List.replicate n 0) = 0 := by
  induction n with
  | zero => simp
  | succ n ih => simp [List.replicate, Nat.ofDigits_cons, ih]

/-- The big-endian hex fold inverts the digit rendering. -/
theorem hexFoldl (L : List Nat) (hL : ∀ x ∈ L, x < 16) (a : Nat) :
    ((L.map hexDigitChar).reverse).foldl (fun acc c => acc * 16 + hexVal c) a
      = a * 16 ^ L.length + Nat.ofDigits 16 L := by
  induction L generalizing a with
  | nil => simp
  | cons x L ih =>
    have hx : hexVal (hexDigitChar x) = x :=
      hexVal_hexDigitChar x (hL x (by simp))
    have ihL := ih (fun y hy => hL y (by simp [hy])) a
    simp only [List.map_cons, List.reverse_cons, List.foldl_append,
      List.foldl_cons, List.foldl_nil, ihL, hx, Nat.ofDigits_cons,
      List.length_cons, pow_succ]
    ring

/-- Decoding the canonical rendering of a 64-bit id gives the id back:
decode∘encode is the identity on the codec's domain (§8). -/
theorem str2int_int2str (d : Nat) (h : d < 2 ^ 64) :
    str2intOpt (int2str d) = some d := by
  set D := Nat.digits 16 d ++
    List.replicate (16 - (Nat.digits 16 d).length) 0 with hD
  have hDlt : ∀ x ∈ D, x < 16 := by
    intro x hx
    rw [hD, List.mem_append] at hx
    rcases hx with hx | hx
    · exact Nat.digits_lt_base (by norm_num) hx
    · rw [List.eq_of_mem_replicate hx]; norm_num
  have hDlen : D.length = 16 := by
    rw [hD]
    simp only [List.length_append, List.length_replicate]
    have := digits16_len_le d h
    omega
  have htoHex : toHex16 d = (D.map hexDigitChar).reverse := rfl
  have hchars : ∀ c ∈ toHex16 d, c ≠ '-' := by
    intro c hc
    rw [htoHex, List.mem_reverse, List.mem_map] at hc
    obtain ⟨x, hx, rfl⟩ := hc
    exact hexDigitChar_ne_hyphen x (hDlt x hx)
  have hfilter : (hyphenJoin (chunk2 (toHex16 d))).filter
      (fun c => decide (c ≠ '-')) = toHex16 d := by
    have hx : ∀ x ∈ chunk2 (toHex16 d), ∀ c ∈ x, c ≠ '-' := by
      intro x hx c hc
      apply hchars
      rw [← chunk2_flatten (toHex16 d)]
      exact List.mem_flatten.mpr ⟨x, hx, hc⟩
    rw [filter_hyphenJoin _ hx, chunk2_flatten]
  have hlen : (toHex16 d).length = 16 := by
    rw [htoHex]; simpa using hDlen
  have hall : (toHex16 d).all isHexDigitCh = true := by
    rw [List.all_eq_true]
    intro c hc
    rw [htoHex, List.mem_reverse, List.mem_map] at hc
    obtain ⟨x, hx, rfl⟩ := hc
    exact isHex_hexDigitChar x (hDlt x hx)
  have hval : (toHex16 d).foldl (fun a c => a * 16 + hexVal c) 0 = d := by
    rw [htoHex, hexFoldl D hDlt 0]
    rw [hD, Nat.ofDigits_append, ofDigits_replicate_zero,
      Nat.ofDigits_digits]
    ring
  unfold int2str
  simp only [str2intOpt]
  rw [hfilter]
  simp [hlen, hall, hval]

/-- The suffix after the last `TN` of `u ++ "TN" ++ v` is determined by
`v` alone: later occurrences can only lie inside `v`, and with no
occurrence in `v` the explicit marker is the last one. -/
theorem dtl_append : ∀ (u v : List Char),
    dropThroughLastTN (u ++ 'T' :: 'N' :: v)
      = some ((dropThroughLastTN v).getD v)
  | [], v => by simp [dropThroughLastTN]
  | [a], v => by
    have h1 : ¬ (a = 'T' ∧ 'T' = 'N') := by
      rintro ⟨-, h⟩
      exact absurd h (by decide)
    simp [dropThroughLastTN, h1]
  | a :: b :: u', v => by
    by_cases hab : a = 'T' ∧ b = 'N'
    · obtain ⟨rfl, rfl⟩ := hab
      have ih := dtl_append u' v
      simp [dropThroughLastTN, ih]
    · have ih := dtl_append (b :: u') v
      simp only [List.cons_append] at ih ⊢
      simp [dropThroughLastTN, hab, ih]

/-- Splitting at newlines never yields the empty segment list. -/
theorem splitNl_ne_nil (s : List Char) : splitNl s ≠ [] := by
  induction s with
  | nil => simp [splitNl]
  | cons c r ih =>
    by_cases h : c = '\n'
    · simp [splitNl, h]
    · simp only [splitNl, if_neg h]
      cases hsp : splitNl r with
      | nil => simp
      | cons hseg t => simp

/-- Prepending a newline-free prefix only extends the first segment. -/
theorem splitNl_append_noNl (P r : List Char) (hP : ∀ c ∈ P, c ≠ '\n') :
    ∃ h t, splitNl r = h :: t ∧ splitNl (P ++ r) = (P ++ h) :: t := by
  induction P with
  | nil =>
    cases hsp : splitNl r with
    | nil => exact absurd hsp (splitNl_ne_nil r)
    | cons h t => exact ⟨h, t, rfl, by simpa using hsp⟩
  | cons c P ih =>
    obtain ⟨h, t, h1, h2⟩ := ih (fun d hd => hP d (List.mem_cons_of_mem c hd))
    have hc : c ≠ '\n' := hP c (by simp)
    refine ⟨h, t, h1, ?_⟩
    simp only [List.cons_append, splitNl, if_neg hc]
    rw [show P.append r = P ++ r from rfl, h2]

/-- The `re.sub` normalization erases any newline-free prefix in front of
the marker, down to the marker itself. -/
theorem subTN_marker_append (P X : List Char) (hP : ∀ c ∈ P, c ≠ '\n') :
    subTN (P ++ 'T' :: 'N' :: X) = subTN ('T' :: 'N' :: X) := by
  have hTN : ∀ c ∈ (['T', 'N'] : List Char), c ≠ '\n' := by decide
  obtain ⟨h, t, h1, h2⟩ := splitNl_append_noNl (P ++ ['T', 'N']) X
    (by
      intro c hc
      rcases List.mem_append.mp hc with hc | hc
      · exact hP c hc
      · exact hTN c hc)
  obtain ⟨h', t', h1', h2'⟩ := splitNl_append_noNl ['T', 'N'] X hTN
  rw [h1] at h1'
  injection h1' with e1 e2
  subst e1
  subst e2
  have e1 : P ++ 'T' :: 'N' :: X = (P ++ ['T', 'N']) ++ X := by simp
  have e2 : ('T' :: 'N' :: X) = (['T', 'N'] : List Char) ++ X := by simp
  rw [subTN, subTN, e1, e2, h2, h2']
  have hstrip : stripToTN ((P ++ ['T', 'N']) ++ h) = stripToTN (['T', 'N'] ++ h) := by
    have d1 : dropThroughLastTN ((P ++ ['T', 'N']) ++ h)
        = some ((dropThroughLastTN h).getD h) := by
      have : (P ++ ['T', 'N']) ++ h = P ++ 'T' :: 'N' :: h := by simp
      rw [this, dtl_append]
    have d2 : dropThroughLastTN (['T', 'N'] ++ h)
        = some ((dropThroughLastTN h).getD h) := by
      have : (['T', 'N'] : List Char) ++ h = [] ++ 'T' :: 'N' :: h := by simp
      rw [this, dtl_append]
    rw [stripToTN, stripToTN, d1, d2]
  simp only [List.map_cons, hstrip]

/-- ASCII uppercasing maps no character to a newline. -/
theorem charUpper_ne_newline (c : Char) (h : c ≠ '\n') :
    charUpper c ≠ '\n' := by
  unfold charUpper
  split
  case isTrue hc =>
    intro he
    have hv : (Char.ofNat (c.toNat - 32)).toNat = c.toNat - 32 := by
      set m := c.toNat - 32 with hm
      have hb : 65 ≤ m ∧ m ≤ 90 := by omega
      obtain ⟨hb1, hb2⟩ := hb
      interval_cases m <;> decide
    rw [he] at hv
    have : ('\n' : Char).toNat = 10 := by decide
    omega
  case isFalse => exact h

/-- A successful association-list lookup returns an entry of the list. -/
theorem lookup_mem (m : List (Nat × Tracker)) (k : Nat) (v : Tracker)
    (h : m.lookup k = some v) : (k, v) ∈ m := by
  induction m with
  | nil => simp [List.lookup] at h
  | cons p rest ih =>
    obtain ⟨k', v'⟩ := p
    by_cases hk : k = k'
    · subst hk
      simp [List.lookup] at h
      simp [h]
    · have hb : (k == k') = false := beq_eq_false_iff_ne.mpr hk
      simp only [List.lookup, hb] at h
      exact List.mem_cons_of_mem _ (ih h)

/-- Looking up the just-inserted key finds the inserted value. -/
theorem lookup_dictInsert_self (m : List (Nat × Tracker)) (k : Nat)
    (v : Tracker) : (dictInsert m k v).lookup k = some v := by
  induction m with
  | nil => simp [dictInsert, List.lookup]
  | cons p rest ih =>
    obtain ⟨k', v'⟩ := p
    by_cases hk : k' = k
    · subst hk; simp [dictInsert, List.lookup]
    · have hb : (k == k') = false := beq_eq_false_iff_ne.mpr (Ne.symm hk)
      simp [dictInsert, hk, List.lookup, hb, ih]

/-- A dict insertion grows the dict by at most one entry. -/
theorem dictInsert_length_le (m : List (Nat × Tracker)) (k : Nat)
    (v : Tracker) : (dictInsert m k v).length ≤ m.length + 1 := by
  induction m with
  | nil => simp [dictInsert]
  | cons p rest ih =>
    obtain ⟨k', v'⟩ := p
    by_cases hk : k' = k
    · simp [dictInsert, hk]
    · simp only [dictInsert, if_neg hk, List.length_cons]
      omega

/-- Inserting an absent key grows the dict by exactly one entry. -/
theorem dictInsert_length_absent (m : List (Nat × Tracker)) (k : Nat)
    (v : Tracker) (h : m.lookup k = none) :
    (dictInsert m k v).length = m.length + 1 := by
  rw [dictInsert_of_absent m k v h]
  simp

/-- The identity of the worked example: canonical address
`58-A0-CB-00-00-20-07-B9` with its decoded id. -/
def eui0 : Str := "58-A0-CB-00-00-20-07-B9".toList

/-- Decoded numeric id of `eui0`. -/
def did0 : Nat := 0x58A0CB00002007B9

/-- The registered example identity. -/
def t0 : Tracker := ⟨eui0, did0⟩

/-- A registry state holding exactly the example identity. -/
def st0 : TMState := ⟨[(did0, t0)], [], [], [], []⟩

/-- A structured message as produced by the external parser for the
example device. -/
def tmW : TrackerMessage := ⟨did0, 5, 0, 0, (0, 0), 0, none, 0⟩

/-- A telemetry-uplink envelope from the example device. -/
def msgW : Msg := ⟨"upinfo".toList, eui0, 0⟩

/-- A parser that always returns the example structured message. -/
def parseW : ParseFun := fun _ _ _ => Except.ok (some tmW)

/-- A parser that always fails with a decode error. -/
def parseFailW : ParseFun := fun _ _ _ => Except.error ()

/-- C1: for a telemetry uplink from a device not yet in the registry
whose parse succeeds, `on_lora_msg` appends exactly one identity to the
registry map, appends exactly one message to the message-write queue, and
the ghost trace shows the identity creation strictly before the message
enqueue. -/
theorem c1_ingest_unknown_success (parse : ParseFun) (st : TMState)
    (msg : Msg) (did : Nat) (tm : TrackerMessage)
    (hty : msg.msgtype = "upinfo".toList)
    (hdec : str2intOpt msg.devEui = some did)
    (hunk : st.did2tracker.lookup did = none)
    (hp : parse parserName did msg = Except.ok (some tm)) :
    on_lora_msg parse st msg = some
      { st with
        did2tracker := st.did2tracker ++ [(did, ⟨msg.devEui, did⟩)],
        statusQueue := dictInsert st.statusQueue did ⟨msg.devEui, did⟩,
        messageQueue := st.messageQueue ++ [tm],
        trace := st.trace ++
          [Event.idEnq did, Event.idCreate did, Event.msgEnq tm.did] } := by
  have hins := dictInsert_of_absent st.did2tracker did ⟨msg.devEui, did⟩ hunk
  simp only [on_lora_msg, addTracker, hty, hdec, hp, hunk, hins,
    Option.isSome_none, ne_eq, not_true_eq_false, if_false,
    Bool.false_eq_true, List.append_assoc, List.cons_append,
    List.nil_append, ite_false]

/-- C1 witness: ingesting the example uplink into a fresh registry
creates the example identity and enqueues the example message in order. -/
theorem c1_witness : on_lora_msg parseW initState msgW = some
    { initState with
      did2tracker := initState.did2tracker ++ [(did0, ⟨msgW.devEui, did0⟩)],
      statusQueue := dictInsert initState.statusQueue did0 ⟨msgW.devEui, did0⟩,
      messageQueue := initState.messageQueue ++ [tmW],
      trace := initState.trace ++
        [Event.idEnq did0, Event.idCreate did0, Event.msgEnq tmW.did] } :=
  c1_ingest_unknown_success parseW initState msgW did0 tmW rfl (by decide)
    rfl rfl

/-- C2: for a telemetry uplink on which the external parser raises a
decode error, `on_lora_msg` returns normally with the state completely
unchanged — the same conclusion whether or not the device id is in the
registry, since the statement never inspects the registry. -/
theorem c2_ingest_parse_failure (parse : ParseFun) (st : TMState)
    (msg : Msg) (did : Nat) (e : Unit)
    (hty : msg.msgtype = "upinfo".toList)
    (hdec : str2intOpt msg.devEui = some did)
    (hp : parse parserName did msg = Except.error e) :
    on_lora_msg parse st msg = some st := by
  simp only [on_lora_msg, hty, hdec, hp, ne_eq, not_true_eq_false,
    if_false, ite_false]

/-- C2 witness: a failing parse of the example uplink leaves both a fresh
registry and the one-device registry untouched. -/
theorem c2_witness : on_lora_msg parseFailW initState msgW = some initState
    ∧ on_lora_msg parseFailW st0 msgW = some st0 :=
  ⟨c2_ingest_parse_failure parseFailW initState msgW did0 () rfl (by decide)
      rfl,
    c2_ingest_parse_failure parseFailW st0 msgW did0 () rfl (by decide) rfl⟩

/-- Folding startup rows into the registry preserves the invariant, since
each loaded identity's address is the canonical rendering of its id. -/
theorem RegInv_loadFold (rows : List Nat) (m : List (Nat × Tracker))
    (hm : RegInv m) (hrows : ∀ d ∈ rows, d < 2 ^ 64) :
    RegInv (rows.foldl (fun m did => dictInsert m did ⟨int2str did, did⟩) m) := by
  induction rows generalizing m with
  | nil => simpa using hm
  | cons d rows ih =>
    simp only [List.foldl_cons]
    exact ih _
      (RegInv_dictInsert m d ⟨int2str d, d⟩ hm
        (str2int_int2str d (hrows d (by simp))))
      (fun x hx => hrows x (by simp [hx]))

/-- `getTracker` preserves the registry invariant: a hit leaves the map
unchanged and a miss inserts an identity whose id is the decoding of the
requested address. -/
theorem RegInv_getTracker (st : TMState) (a : Str) (t : Tracker)
    (st' : TMState) (hm : RegInv st.did2tracker)
    (h : getTracker st a = some (t, st')) : RegInv st'.did2tracker := by
  unfold getTracker at h
  cases hdec : str2intOpt a with
  | none => simp only [hdec] at h; exact Option.noConfusion h
  | some did =>
    simp only [hdec] at h
    cases hlk : st.did2tracker.lookup did with
    | some tex =>
      simp only [hlk] at h
      injection h with h
      injection h with h1 h2
      subst h2
      exact hm
    | none =>
      simp only [hlk] at h
      injection h with h
      injection h with h1 h2
      subst h2
      exact RegInv_dictInsert _ did ⟨a, did⟩ hm hdec

/-- `addTracker` preserves the registry invariant whenever the given id
is the decoding of the given address. -/
theorem RegInv_addTracker (st : TMState) (a : Str) (did : Nat)
    (t : Tracker) (st' : TMState) (hm : RegInv st.did2tracker)
    (hdec : str2intOpt a = some did)
    (h : addTracker st a did = (some t, st')) : RegInv st'.did2tracker := by
  unfold addTracker at h
  by_cases hlk : (st.did2tracker.lookup did).isSome
  · rw [if_pos hlk] at h
    have h1 : (none : Option Tracker) = some t := congrArg Prod.fst h
    exact Option.noConfusion h1
  · rw [if_neg hlk] at h
    injection h with h1 h2
    subst h2
    exact RegInv_dictInsert _ did ⟨a, did⟩ hm hdec

/-- `on_lora_msg` preserves the registry invariant: the only map change
is the first-seen-on-valid-parse insertion, whose id is the decoding of
the envelope's address. -/
theorem RegInv_onLoraMsg (parse : ParseFun) (st : TMState) (msg : Msg)
    (st' : TMState) (hm : RegInv st.did2tracker)
    (h : on_lora_msg parse st msg = some st') : RegInv st'.did2tracker := by
  unfold on_lora_msg at h
  by_cases hty : msg.msgtype ≠ "upinfo".toList
  · rw [if_pos hty] at h
    injection h with h
    rw [← h]
    exact hm
  · rw [if_neg hty] at h
    cases hdec : str2intOpt msg.devEui with
    | none => simp only [hdec] at h; exact Option.noConfusion h
    | some did =>
      simp only [hdec] at h
      cases hlk : st.did2tracker.lookup did with
      | some tex =>
        cases hp : parse parserName did msg with
        | error e =>
          simp only [hp, hlk] at h
          injection h with h
          rw [← h]
          exact hm
        | ok o =>
          cases o with
          | none =>
            simp only [hp, hlk] at h
            injection h with h
            rw [← h]
            exact hm
          | some tm =>
            simp only [hp, hlk] at h
            injection h with h
            rw [← h]
            exact hm
      | none =>
        cases hp : parse parserName did msg with
        | error e =>
          simp only [hp, hlk] at h
          injection h with h
          rw [← h]
          exact hm
        | ok o =>
          cases o with
          | none =>
            simp only [hp, hlk] at h
            injection h with h
            rw [← h]
            exact hm
          | some tm =>
            simp only [hp, hlk] at h
            unfold addTracker at h
            simp only [hlk, Option.isSome_none, Bool.false_eq_true,
              if_false, ite_false] at h
            injection h with h
            rw [← h]
            exact RegInv_dictInsert _ did ⟨msg.devEui, did⟩ hm hdec

/-- C3 (amended): the registry invariant — duplicate-free ids, and
id = decode(address) for each stored identity — is preserved by startup
load, by `getTracker`, by ingestion, and by `addTracker` whenever the
explicitly given id equals the decoding of the given address (the code
never checks this; see the counterexample). -/
theorem c3_invariant_amended :
    (∀ rows : List Nat, (∀ d ∈ rows, d < 2 ^ 64) →
      RegInv (loadTracker rows)) ∧
    (∀ st a t st', RegInv st.did2tracker → getTracker st a = some (t, st') →
      RegInv st'.did2tracker) ∧
    (∀ st a did t st', RegInv st.did2tracker → str2intOpt a = some did →
      addTracker st a did = (some t, st') → RegInv st'.did2tracker) ∧
    (∀ parse st msg st', RegInv st.did2tracker →
      on_lora_msg parse st msg = some st' → RegInv st'.did2tracker) :=
  ⟨fun rows h => RegInv_loadFold rows [] (by constructor <;> simp) h,
   fun st a t st' hm h => RegInv_getTracker st a t st' hm h,
   fun st a did t st' hm hdec h => RegInv_addTracker st a did t st' hm hdec h,
   fun parse st msg st' hm h => RegInv_onLoraMsg parse st msg st' hm h⟩

/-- An address whose decoding (1) differs from an arbitrarily chosen
explicit id (5). -/
def badEui : Str := "00-00-00-00-00-00-00-01".toList

/-- C3 counterexample: from the invariant-satisfying fresh registry, the
explicit add `addTracker(badEui, 5)` succeeds and produces a registry
whose stored identity violates id = decode(address), refuting the claim
that every registry operation preserves the invariant. -/
theorem c3_counterexample :
    RegInv initState.did2tracker ∧
    (addTracker initState badEui 5).1 = some ⟨badEui, 5⟩ ∧
    ¬ RegInv (addTracker initState badEui 5).2.did2tracker := by decide

/-- Registry state after creating the example identity in a fresh
manager. -/
def stG : TMState :=
  ⟨[(did0, t0)], [], [(did0, t0)], [],
    [Event.idEnq did0, Event.idCreate did0]⟩

/-- Registry state after ingesting the example uplink into a fresh
manager. -/
def stI : TMState :=
  ⟨[(did0, t0)], [], [(did0, t0)], [tmW],
    [Event.idEnq did0, Event.idCreate did0, Event.msgEnq did0]⟩

/-- C3 witness: the amended invariant theorem applied to a concrete load,
a concrete `getTracker`, a concrete matching `addTracker`, and a concrete
ingestion. -/
theorem c3_witness :
    RegInv (loadTracker [3, 2 ^ 64 - 1]) ∧
    RegInv stG.did2tracker ∧ RegInv stG.did2tracker ∧
    RegInv stI.did2tracker :=
  ⟨c3_invariant_amended.1 [3, 2 ^ 64 - 1] (by decide),
   c3_invariant_amended.2.1 initState eui0 t0 stG (by decide) (by decide),
   c3_invariant_amended.2.2.1 initState eui0 did0 t0 stG (by decide)
     (by decide) (by decide),
   c3_invariant_amended.2.2.2 parseW initState msgW stI (by decide)
     (by decide)⟩

/-- C6: `getTracker` is idempotent — after any successful call, an
immediate repeat with the same address returns the same identity and the
very same state (so it enqueues nothing and performs no I/O); one call
grows the identity-write queue by at most one entry; and a call whose id
is already in the in-memory map leaves the state entirely unchanged. -/
theorem c6_getOrCreate_idempotent (st : TMState) (a : Str) (did : Nat)
    (t : Tracker) (st' : TMState)
    (hdec : str2intOpt a = some did)
    (h : getTracker st a = some (t, st')) :
    getTracker st' a = some (t, st') ∧
    st'.statusQueue.length ≤ st.statusQueue.length + 1 ∧
    ((st.did2tracker.lookup did).isSome → st' = st) := by
  unfold getTracker at h ⊢
  simp only [hdec] at h ⊢
  cases hlk : st.did2tracker.lookup did with
  | some tex =>
    simp only [hlk] at h
    injection h with h
    injection h with h1 h2
    subst h2
    subst h1
    simp [hlk]
  | none =>
    simp only [hlk] at h
    injection h with h
    injection h with h1 h2
    subst h2
    subst h1
    refine ⟨?_, dictInsert_length_le _ _ _, fun hs => by simp [hlk] at hs⟩
    simp only [lookup_dictInsert_self]

/-- C6 witness: the first creation in a fresh registry, then the repeat
call, exercised on the example identity. -/
theorem c6_witness :
    getTracker stG eui0 = some (t0, stG) ∧
    stG.statusQueue.length ≤ initState.statusQueue.length + 1 ∧
    ((initState.did2tracker.lookup did0).isSome → stG = initState) :=
  c6_getOrCreate_idempotent initState eui0 did0 t0 stG (by decide) (by decide)

/-- C7: `addTracker` with an already-present id fails its assertion
before any mutation, so the whole state (map and both queues) is returned
unchanged; with a fresh id it appends exactly one identity to the map,
performs exactly one identity-write enqueue (the status-queue dict grows
by one when the id was not already pending), and touches nothing else. -/
theorem c7_addExplicit (st : TMState) (a : Str) (did : Nat) :
    ((st.did2tracker.lookup did).isSome → addTracker st a did = (none, st)) ∧
    (st.did2tracker.lookup did = none →
      addTracker st a did =
        (some ⟨a, did⟩,
          { st with
            did2tracker := st.did2tracker ++ [(did, ⟨a, did⟩)],
            statusQueue := dictInsert st.statusQueue did ⟨a, did⟩,
            trace := st.trace ++ [Event.idEnq did, Event.idCreate did] }) ∧
      (st.statusQueue.lookup did = none →
        (dictInsert st.statusQueue did ⟨a, did⟩).length
          = st.statusQueue.length + 1)) := by
  constructor
  · intro hs
    unfold addTracker
    rw [if_pos hs]
  · intro hn
    refine ⟨?_, fun hq => dictInsert_length_absent _ _ _ hq⟩
    unfold addTracker
    rw [if_neg (by simp [hn])]
    simp only [dictInsert_of_absent _ _ _ hn]

/-- C7 witness: the conflicting add on the one-device registry aborts
with the state unchanged; the fresh add on an empty registry inserts and
enqueues the example identity. -/
theorem c7_witness :
    addTracker st0 eui0 did0 = (none, st0) ∧
    addTracker initState eui0 did0 =
      (some ⟨eui0, did0⟩,
        { initState with
          did2tracker := initState.did2tracker ++ [(did0, ⟨eui0, did0⟩)],
          statusQueue := dictInsert initState.statusQueue did0 ⟨eui0, did0⟩,
          trace := initState.trace ++
            [Event.idEnq did0, Event.idCreate did0] }) :=
  ⟨(c7_addExplicit st0 eui0 did0).1 (by decide),
   ((c7_addExplicit initState eui0 did0).2 (by decide)).1⟩

/-- C10: `searchTracker` and `lookupTracker` are read-only — the state
they return is the input state, so the id→identity map, the cached
pagination list, both write-queue accumulators and the trace are
unchanged, and in particular no identity is created on a failed lookup.
(The embedding threads the state through both bodies statement by
statement; neither body contains a write, so the returned state is the
input state.) -/
theorem c10_search_lookup_readonly (st : TMState) (s : Str) :
    (searchTracker st s).2 = st ∧ (lookupTracker st s).2 = st :=
  ⟨rfl, rfl⟩

/-- ASCII uppercasing fixes the marker letters. -/
theorem charUpper_T : charUpper 'T' = 'T' := by decide

/-- ASCII uppercasing fixes the marker letters. -/
theorem charUpper_N : charUpper 'N' = 'N' := by decide

/-- C5 (amended): uppercasing first, the normalization collapses any
newline-free prefix in front of the (last) marker occurrence to the
marker itself, keeping the marker: prefixing a query that already starts
with the marker changes nothing. -/
theorem c5_marker_collapse (st : TMState) (p x : Str)
    (hp : ∀ c ∈ p, c ≠ '\n') :
    searchTracker st (p ++ "TN".toList ++ x)
      = searchTracker st ("TN".toList ++ x) := by
  have hTN : "TN".toList = ['T', 'N'] := rfl
  have hup : ∀ c ∈ upperStr p, c ≠ '\n' := by
    intro c hc
    obtain ⟨c0, hc0, rfl⟩ := List.mem_map.mp hc
    exact charUpper_ne_newline c0 (hp c0 hc0)
  have h1 : upperStr (p ++ "TN".toList ++ x)
      = upperStr p ++ 'T' :: 'N' :: upperStr x := by
    rw [hTN]
    simp only [upperStr, List.map_append, List.map_cons, List.map_nil,
      charUpper_T, charUpper_N]
    simp
  have h2 : upperStr ("TN".toList ++ x) = 'T' :: 'N' :: upperStr x := by
    rw [hTN]
    simp only [upperStr, List.map_append, List.map_cons, List.map_nil,
      charUpper_T, charUpper_N]
    simp
  unfold searchTracker
  rw [h1, h2, subTN_marker_append (upperStr p) (upperStr x) hup]

/-- C5 counterexample: with the example device registered, the claim
"search(p + marker + x) equals the branch evaluation of the bare
remainder x" fails at p = "", x = "2007B9": the code keeps the marker, so
the marker-prefixed partial suffix is not found while the bare partial
suffix resolves to the device. -/
theorem c5_counterexample :
    ¬ ((searchTracker st0 (([] : Str) ++ "TN".toList ++ "2007B9".toList)).1
        = searchBranches st0 ("2007B9".toList)) := by decide

/-- C5 witness: a concrete prefixed query resolves exactly like the
marker-led query. -/
theorem c5_witness :
    searchTracker st0 ("XYTN2007B9".toList)
      = searchTracker st0 ("TN2007B9".toList) := by
  have h := c5_marker_collapse st0 ("XY".toList) ("2007B9".toList)
    (by decide)
  exact h

/-- The fallback either reports not-found or returns an identity stored
in the registry; its decode failure is caught, so it never raises. -/
theorem searchFallback_ok (st : TMState) (pre : Str) :
    searchFallback st pre = some none ∨
    ∃ t d, searchFallback st pre = some (some t) ∧ (d, t) ∈ st.did2tracker := by
  unfold searchFallback
  cases hdec : str2intOpt pre with
  | none => exact Or.inl (by simp only [hdec])
  | some did =>
    cases hlk : st.did2tracker.lookup did with
    | none => exact Or.inl (by simp only [hdec, hlk])
    | some t =>
      exact Or.inr ⟨t, did, by simp only [hdec, hlk], lookup_mem _ _ _ hlk⟩

/-- A successful suffix scan returns an identity stored in the
registry. -/
theorem suffixScan_mem (st : TMState) (s' : Str) (t : Tracker)
    (h : suffixScan st s' = some t) : ∃ d, (d, t) ∈ st.did2tracker := by
  unfold suffixScan at h
  cases hf : st.did2tracker.find? (fun p => s'.isSuffixOf p.2.deveui) with
  | none => rw [hf] at h; exact Option.noConfusion h
  | some p =>
    rw [hf] at h
    injection h with h
    exact ⟨p.1, by
      have := List.mem_of_find?_eq_some hf
      rw [← h]
      simpa using this⟩

/-- Branch evaluation raises only in the length-18 branch, and only when
the reformatted address fails to decode; every returned identity is
stored in the registry. -/
theorem searchBranches_total (st : TMState) (n : Str) :
    (searchBranches st n = none →
      n.length = 18 ∧ str2intOpt (tn2eui n) = none) ∧
    (∀ t, searchBranches st n = some (some t) →
      ∃ d, (d, t) ∈ st.did2tracker) := by
  unfold searchBranches
  by_cases h18 : n.length = 18
  · rw [if_pos h18]
    unfold lookupTracker
    cases hdec : str2intOpt (tn2eui n) with
    | none =>
      refine ⟨fun _ => ⟨h18, rfl⟩, fun t ht => ?_⟩
      exact Option.noConfusion ht
    | some did =>
      refine ⟨fun hc => Option.noConfusion hc, fun t ht => ?_⟩
      injection ht with ht
      cases hlk : st.did2tracker.lookup did with
      | none => rw [hlk] at ht; exact Option.noConfusion ht
      | some t' =>
        rw [hlk] at ht
        injection ht with ht
        exact ⟨did, lookup_mem _ _ _ (by rw [hlk, ht])⟩
  · rw [if_neg h18]
    by_cases h0 : n.length = 0
    · rw [if_pos h0]
      unfold lookupTracker
      have hdft : str2intOpt (tn2eui defaultTag) = some 0x58A0CB0000200000 := by
        decide
      rw [hdft]
      refine ⟨fun hc => Option.noConfusion hc, fun t ht => ?_⟩
      injection ht with ht
      cases hlk : st.did2tracker.lookup 0x58A0CB0000200000 with
      | none => rw [hlk] at ht; exact Option.noConfusion ht
      | some t' =>
        rw [hlk] at ht
        injection ht with ht
        exact ⟨_, lookup_mem _ _ _ (by rw [hlk, ht])⟩
    · rw [if_neg h0]
      by_cases h3 : n.length < 18 ∧ ¬ n.contains '-'
      · rw [if_pos h3]
        cases hscan : suffixScan st ((s2eui n.reverse).reverse) with
        | some t' =>
          simp only [hscan]
          refine ⟨fun hc => Option.noConfusion hc, fun t ht => ?_⟩
          injection ht with ht
          injection ht with ht
          exact ht ▸ suffixScan_mem _ _ _ hscan
        | none =>
          simp only [hscan]
          rcases searchFallback_ok st ((s2eui n.reverse).reverse) with
            hok | ⟨t', d, hok, hmem⟩
          · rw [hok]
            refine ⟨fun hc => Option.noConfusion hc, fun t ht => ?_⟩
            injection ht with ht
            exact Option.noConfusion ht
          · rw [hok]
            refine ⟨fun hc => Option.noConfusion hc, fun t ht => ?_⟩
            injection ht with ht
            injection ht with ht
            exact ⟨d, ht ▸ hmem⟩
      · rw [if_neg h3]
        by_cases h4 : n.length < 23 ∧ n.contains '-'
        · rw [if_pos h4]
          cases hscan : suffixScan st
              ((s2eui ((n.filter (fun c => decide (c ≠ '-'))).reverse)).reverse) with
          | some t' =>
            simp only [hscan]
            refine ⟨fun hc => Option.noConfusion hc, fun t ht => ?_⟩
            injection ht with ht
            injection ht with ht
            exact ht ▸ suffixScan_mem _ _ _ hscan
          | none =>
            simp only [hscan]
            rcases searchFallback_ok st
                ((s2eui ((n.filter (fun c => decide (c ≠ '-'))).reverse)).reverse) with
              hok | ⟨t', d, hok, hmem⟩
            · rw [hok]
              refine ⟨fun hc => Option.noConfusion hc, fun t ht => ?_⟩
              injection ht with ht
              exact Option.noConfusion ht
            · rw [hok]
              refine ⟨fun hc => Option.noConfusion hc, fun t ht => ?_⟩
              injection ht with ht
              injection ht with ht
              exact ⟨d, ht ▸ hmem⟩
        · rw [if_neg h4]
          rcases searchFallback_ok st n with hok | ⟨t', d, hok, hmem⟩
          · rw [hok]
            refine ⟨fun hc => Option.noConfusion hc, fun t ht => ?_⟩
            injection ht with ht
            exact Option.noConfusion ht
          · rw [hok]
            refine ⟨fun hc => Option.noConfusion hc, fun t ht => ?_⟩
            injection ht with ht
            injection ht with ht
            exact ⟨d, ht ▸ hmem⟩

/-- C4 (amended): `searchTracker` propagates an exception only from the
length-18 (full-address/vendor-tag) branch, and only when that branch's
reformatted address fails to decode; in every other case it returns, and
any returned identity is one stored in the registry (otherwise the result
is not-found). -/
theorem c4_search_total_amended (st : TMState) (s : Str) :
    ((searchTracker st s).1 = none →
      (subTN (upperStr s)).length = 18 ∧
        str2intOpt (tn2eui (subTN (upperStr s))) = none) ∧
    (∀ t, (searchTracker st s).1 = some (some t) →
      ∃ d, (d, t) ∈ st.did2tracker) :=
  searchBranches_total st (subTN (upperStr s))

/-- C4 counterexample: `searchTracker` does raise on a concrete input —
an 18-character query of non-hex letters reaches the length-18 branch,
whose `lookupTracker` decode is not guarded by `try/except`; in the
embedding the propagated exception is the `none` result. -/
theorem c4_counterexample :
    (searchTracker initState ("TNGGGGGGGGGGGGGGGG".toList)).1 = none := by
  decide

/-- C4 witness: the amended theorem applied to the example registry and
the bare partial-suffix query, whose hypothesis is discharged by
computing the search result. -/
theorem c4_witness : ∃ d, (d, t0) ∈ st0.did2tracker :=
  (c4_search_total_amended st0 ("2007B9".toList)).2 t0 (by decide)

/-- C8: in any registry where the example identity is registered under
its decoded id and is the only identity whose address ends in
`20-07-B9`, the vendor-tag query, the canonical hyphenated query, and the
bare partial-suffix query all resolve to that same identity. -/
theorem c8_search_examples (st : TMState) (t : Tracker)
    (hlk : st.did2tracker.lookup did0 = some t)
    (ht : t.deveui = eui0)
    (huniq : ∀ p ∈ st.did2tracker,
      ("20-07-B9".toList).isSuffixOf p.2.deveui = true → p.2 = t) :
    (searchTracker st ("TN58A0CB00002007B9".toList)).1 = some (some t) ∧
    (searchTracker st ("58-A0-CB-00-00-20-07-B9".toList)).1 = some (some t) ∧
    (searchTracker st ("2007B9".toList)).1 = some (some t) := by
  have e3 : str2intOpt eui0 = some did0 := by decide
  refine ⟨?_, ?_, ?_⟩
  · show searchBranches st
      (subTN (upperStr ("TN58A0CB00002007B9".toList))) = some (some t)
    rw [show subTN (upperStr ("TN58A0CB00002007B9".toList))
        = "TN58A0CB00002007B9".toList from by decide]
    unfold searchBranches
    rw [if_pos (by decide : ("TN58A0CB00002007B9".toList).length = 18)]
    rw [show tn2eui ("TN58A0CB00002007B9".toList) = eui0 from by decide]
    unfold lookupTracker
    simp only [e3, hlk]
  · show searchBranches st
      (subTN (upperStr ("58-A0-CB-00-00-20-07-B9".toList))) = some (some t)
    rw [show subTN (upperStr ("58-A0-CB-00-00-20-07-B9".toList))
        = eui0 from by decide]
    unfold searchBranches
    rw [if_neg (by decide), if_neg (by decide), if_neg (by decide),
      if_neg (by decide)]
    unfold searchFallback
    simp only [e3, hlk]
  · show searchBranches st
      (subTN (upperStr ("2007B9".toList))) = some (some t)
    rw [show subTN (upperStr ("2007B9".toList))
        = "2007B9".toList from by decide]
    unfold searchBranches
    rw [if_neg (by decide), if_neg (by decide), if_pos (by decide)]
    rw [show (s2eui ("2007B9".toList).reverse).reverse
        = "20-07-B9".toList from by decide]
    have hscan : suffixScan st ("20-07-B9".toList) = some t := by
      unfold suffixScan
      have hex : ∃ p ∈ st.did2tracker,
          (("20-07-B9".toList).isSuffixOf p.2.deveui) = true :=
        ⟨(did0, t), lookup_mem _ _ _ hlk, by
          show ("20-07-B9".toList).isSuffixOf t.deveui = true
          rw [ht]
          decide⟩
      have hsome := List.find?_isSome.mpr hex
      obtain ⟨p', hp'⟩ := Option.isSome_iff_exists.mp hsome
      rw [hp']
      have hmem := List.mem_of_find?_eq_some hp'
      have hpred := List.find?_some hp'
      simp [huniq p' hmem hpred]
    simp only [hscan]

/-- C8 witness: the three queries on the concrete one-device registry. -/
theorem c8_witness :
    (searchTracker st0 ("TN58A0CB00002007B9".toList)).1 = some (some t0) ∧
    (searchTracker st0 ("58-A0-CB-00-00-20-07-B9".toList)).1 = some (some t0) ∧
    (searchTracker st0 ("2007B9".toList)).1 = some (some t0) :=
  c8_search_examples st0 t0 (by decide) (by decide) (by decide)

/-- Total number of rows in a grouped result. -/
def msgCount (m : List (Nat × List TrackerMessage)) : Nat :=
  (m.map (fun p => p.2.length)).sum

/-- Membership in an upid-ordered insertion. -/
theorem mem_insertByUpid (r : TrackerMessage) (l : List TrackerMessage)
    (x : TrackerMessage) : x ∈ insertByUpid r l ↔ x = r ∨ x ∈ l := by
  induction l with
  | nil => simp [insertByUpid]
  | cons y ys ih =>
    by_cases hr : r.upid ≤ y.upid
    · simp [insertByUpid, hr]
    · simp [insertByUpid, hr, ih]
      tauto

/-- Ordered insertion preserves upid-sortedness. -/
theorem pairwise_insertByUpid (r : TrackerMessage) (l : List TrackerMessage)
    (h : List.Pairwise (fun a b => a.upid ≤ b.upid) l) :
    List.Pairwise (fun a b => a.upid ≤ b.upid) (insertByUpid r l) := by
  induction l with
  | nil => simp [insertByUpid]
  | cons y ys ih =>
    rcases List.pairwise_cons.mp h with ⟨hy, hys⟩
    by_cases hr : r.upid ≤ y.upid
    · simp only [insertByUpid, if_pos hr]
      refine List.pairwise_cons.mpr ⟨?_, h⟩
      intro z hz
      rcases List.mem_cons.mp hz with rfl | hz
      · exact hr
      · exact le_trans hr (hy z hz)
    · simp only [insertByUpid, if_neg hr]
      refine List.pairwise_cons.mpr ⟨?_, ih hys⟩
      intro z hz
      rcases (mem_insertByUpid r ys z).mp hz with rfl | hz
      · omega
      · exact hy z hz

/-- Sorting by upid is a permutation-level no-op for membership. -/
theorem mem_sortByUpid (l : List TrackerMessage) (x : TrackerMessage) :
    x ∈ sortByUpid l ↔ x ∈ l := by
  induction l with
  | nil => simp [sortByUpid]
  | cons y ys ih =>
    simp only [sortByUpid, List.foldr_cons] at ih ⊢
    rw [mem_insertByUpid]
    simp [ih]

/-- The upid sort produces an ascending list. -/
theorem pairwise_sortByUpid (l : List TrackerMessage) :
    List.Pairwise (fun a b => a.upid ≤ b.upid) (sortByUpid l) := by
  induction l with
  | nil => simp [sortByUpid]
  | cons y ys ih =>
    simp only [sortByUpid, List.foldr_cons] at ih ⊢
    exact pairwise_insertByUpid y _ ih

/-- Every row of the range query belongs to a requested device and lies
in the upid window. -/
theorem mem_queryMessages (db : List TrackerMessage) (ds : List Nat)
    (lo hi : Nat) (x : TrackerMessage) (h : x ∈ queryMessages db ds lo hi) :
    x.did ∈ ds ∧ lo ≤ x.upid ∧ x.upid ≤ hi := by
  unfold queryMessages at h
  have h1 := (List.take_sublist 8192 _).subset h
  rw [mem_sortByUpid] at h1
  have h2 := List.mem_filter.mp h1
  have h3 := h2.2
  simp only [Bool.and_eq_true, decide_eq_true_eq] at h3
  exact ⟨by simpa using h3.1.1, h3.1.2, h3.2⟩

/-- Query rows come out ascending by upid. -/
theorem pairwise_queryMessages (db : List TrackerMessage) (ds : List Nat)
    (lo hi : Nat) :
    List.Pairwise (fun a b => a.upid ≤ b.upid) (queryMessages db ds lo hi) :=
  List.Pairwise.sublist (List.take_sublist 8192 _) (pairwise_sortByUpid _)

/-- The query is hard-capped at 8192 rows. -/
theorem length_queryMessages (db : List TrackerMessage) (ds : List Nat)
    (lo hi : Nat) : (queryMessages db ds lo hi).length ≤ 8192 := by
  unfold queryMessages
  exact List.length_take_le 8192 _

/-- Grouping a row does not change the results of other device ids. -/
theorem groupInsert_lookup_ne (m : List (Nat × List TrackerMessage))
    (r : TrackerMessage) (d : Nat) (hd : d ≠ r.did) :
    (groupInsert m r).lookup d = m.lookup d := by
  induction m with
  | nil =>
    have hb : (d == r.did) = false := beq_eq_false_iff_ne.mpr hd
    simp [groupInsert, List.lookup, hb]
  | cons p rest ih =>
    obtain ⟨k, l⟩ := p
    by_cases hk : k = r.did
    · subst hk
      have hb : (d == r.did) = false := beq_eq_false_iff_ne.mpr hd
      simp [groupInsert, List.lookup, hb]
    · simp only [groupInsert, if_neg hk]
      by_cases hkd : d = k
      · subst hkd; simp [List.lookup]
      · have hb : (d == k) = false := beq_eq_false_iff_ne.mpr hkd
        simp [List.lookup, hb, ih]

/-- A key present after grouping a row list was present before or is one
of the rows' device ids. -/
theorem groupFold_lookup (rows : List TrackerMessage)
    (m : List (Nat × List TrackerMessage)) (d : Nat)
    (h : ((rows.foldl groupInsert m).lookup d).isSome) :
    (m.lookup d).isSome ∨ d ∈ rows.map (fun r => r.did) := by
  induction rows generalizing m with
  | nil => exact Or.inl h
  | cons r rows ih =>
    simp only [List.foldl_cons] at h
    rcases ih (groupInsert m r) h with h1 | h1
    · by_cases hd : d = r.did
      · exact Or.inr (by simp [hd])
      · rw [groupInsert_lookup_ne m r d hd] at h1
        exact Or.inl h1
    · exact Or.inr (by simp [h1])

/-- Grouping one row adds exactly one to the total row count. -/
theorem msgCount_groupInsert (m : List (Nat × List TrackerMessage))
    (r : TrackerMessage) : msgCount (groupInsert m r) = msgCount m + 1 := by
  induction m with
  | nil => simp [groupInsert, msgCount]
  | cons p rest ih =>
    obtain ⟨k, l⟩ := p
    by_cases hk : k = r.did
    · subst hk
      simp [groupInsert, msgCount]
      omega
    · simp only [groupInsert, if_neg hk, msgCount, List.map_cons,
        List.sum_cons] at ih ⊢
      omega

/-- Grouping preserves the total row count. -/
theorem msgCount_groupFold (rows : List TrackerMessage)
    (m : List (Nat × List TrackerMessage)) :
    msgCount (rows.foldl groupInsert m) = msgCount m + rows.length := by
  induction rows generalizing m with
  | nil => simp
  | cons r rows ih =>
    simp only [List.foldl_cons, List.length_cons]
    rw [ih (groupInsert m r), msgCount_groupInsert]
    omega

/-- C9: `getTrackerMessages` returns groups only for requested ids that
are known to the registry; when no requested id is known, it returns the
empty result having issued no query; otherwise it issues exactly one
range query whose rows are ascending by upid and capped at 8192, groups
those rows by device id, and the grouped total also respects the cap. -/
theorem c9_messagesFor (st : TMState) (db : List TrackerMessage)
    (dids : List Nat) (lo hi : Nat) :
    (∀ d, ((getTrackerMessages st db dids lo hi).1.lookup d).isSome →
      d ∈ dids ∧ (st.did2tracker.lookup d).isSome) ∧
    (knownDids st dids = [] →
      getTrackerMessages st db dids lo hi = ([], 0)) ∧
    (knownDids st dids ≠ [] →
      (getTrackerMessages st db dids lo hi).2 = 1 ∧
      (getTrackerMessages st db dids lo hi).1
        = groupRows (queryMessages db (knownDids st dids) lo hi) ∧
      List.Pairwise (fun a b => a.upid ≤ b.upid)
        (queryMessages db (knownDids st dids) lo hi) ∧
      (queryMessages db (knownDids st dids) lo hi).length ≤ 8192 ∧
      msgCount (getTrackerMessages st db dids lo hi).1 ≤ 8192) := by
  by_cases hk : knownDids st dids = []
  · rw [show getTrackerMessages st db dids lo hi = ([], 0) from by
      unfold getTrackerMessages
      simp [hk]]
    refine ⟨?_, fun _ => rfl, fun hne => absurd hk hne⟩
    intro d hd
    simp [List.lookup] at hd
  · rw [show getTrackerMessages st db dids lo hi
        = (groupRows (queryMessages db (knownDids st dids) lo hi), 1) from by
      unfold getTrackerMessages
      simp [hk]]
    refine ⟨?_, fun he => absurd he hk, fun _ =>
      ⟨rfl, rfl, pairwise_queryMessages _ _ _ _,
        length_queryMessages _ _ _ _, ?_⟩⟩
    · intro d hd
      rcases groupFold_lookup _ [] d hd with h1 | h1
      · simp [List.lookup] at h1
      · obtain ⟨x, hx, rfl⟩ := List.mem_map.mp h1
        have hxq := (mem_queryMessages db _ lo hi x hx).1
        unfold knownDids at hxq
        obtain ⟨hd1, hd2⟩ := List.mem_filter.mp hxq
        exact ⟨hd1, hd2⟩
    · show msgCount (groupRows (queryMessages db (knownDids st dids) lo hi)) ≤ 8192
      rw [groupRows, msgCount_groupFold]
      have := length_queryMessages db (knownDids st dids) lo hi
      simp [msgCount]
      omega

/-- A stored message row for a device id (99) absent from the registry. -/
def tm2W : TrackerMessage := ⟨99, 3, 0, 0, (0, 0), 0, none, 0⟩

/-- A later stored message row for the example device. -/
def tm3W : TrackerMessage := ⟨did0, 50, 0, 0, (0, 0), 0, none, 0⟩

/-- A concrete message table holding rows for the example device and for
an unregistered device. -/
def dbW : List TrackerMessage := [tm3W, tm2W, tmW]

/-- C9 witness: the range query over the one-device registry with one
known and one unknown requested id. -/
theorem c9_witness :
    (getTrackerMessages st0 dbW [did0, 99] 0 100).2 = 1 ∧
    (getTrackerMessages st0 dbW [did0, 99] 0 100).1
      = groupRows (queryMessages dbW (knownDids st0 [did0, 99]) 0 100) ∧
    List.Pairwise (fun a b => a.upid ≤ b.upid)
      (queryMessages dbW (knownDids st0 [did0, 99]) 0 100) ∧
    (queryMessages dbW (knownDids st0 [did0, 99]) 0 100).length ≤ 8192 ∧
    msgCount (getTrackerMessages st0 dbW [did0, 99] 0 100).1 ≤ 8192 :=
  (c9_messagesFor st0 dbW [did0, 99] 0 100).2.2 (by decide)
